import Mathlib

/-!
Verification of the mentionbot fetch pipeline (package `mentionbot`):
the fan-out/fan-in fetcher `followersTimeline`, the adaptive polling
scheduler `Run`, and the identifier cache (`setIds` / `pickIds`).

Shallow embedding conventions:
- Go `time.Time` instants and unix seconds are modelled as `Int`;
  `uint32` counters as `Nat`.
- `Tweet.CreatedAtTime` (repository API layer, not under `src/`) is
  modelled from the spec as an abstract fallible parser
  `parse : String → Option Int` (spec §3: parsing the raw timestamp is
  fallible and performed on demand).
- Goroutine results arriving on the `out` channel are modelled as a list
  in arrival order; concurrency claims use an explicit small-step pool
  state machine.
- Go's standard-library `sort.Sort` (invoked on the `timeline` type) is
  modelled two ways: by its documented contract (a permutation of the
  input with no `Less`-inversions, with no stability guarantee), and by
  an executable embedding of the classic (Go ≤ 1.18) deterministic
  algorithm (shell pass + insertion sort for ranges ≤ 12 elements,
  median-of-three quicksort with depth-limited heapsort fallback
  otherwise).
-/

namespace Mentionbot

/-! ## Data model

Modelled from the spec: the `Tweet`, `User`, `rateLimitStatus` and
`apiResult` types live in the repository's API layer file, which is not
under `src/`; the fields below follow spec §3 (Status, Account,
RateLimitObservation) and the uses in `bot.go` and `bot_test.go`.
In Go, `Tweet.User` is a full `User` value (whose `Status` points back
at the tweet); here the attached user is flattened to its core fields,
which is all `followersTimeline` reads or writes. -/

structure UserCore where
  id : Int
  screenName : String
deriving DecidableEq, Inhabited, Repr

/-- Status record: raw creation-timestamp string, text, identifier, and
the owning account attached during accumulation (`tweet.User = user`). -/
structure Tweet where
  idStr : String
  createdAt : String
  text : String
  user : UserCore := ⟨0, ""⟩
deriving DecidableEq, Inhabited, Repr

/-- Account with an optional most-recent Status (`User.Status *Tweet`). -/
structure User where
  core : UserCore
  status : Option Tweet
deriving DecidableEq, Inhabited, Repr

/-- Rate-limit observation `{Limit, Remaining, Reset}` (uint32, uint32,
int64 unix seconds). -/
structure RateLimitStatus where
  limit : Nat
  remaining : Nat
  reset : Int
deriving DecidableEq, Inhabited, Repr

/-- Errors surfaced by the pipeline: an upstream API error, or a
timestamp-parse failure (carrying the raw string that failed). -/
inductive GoErr where
  | api (msg : String)
  | parseFail (createdAt : String)
deriving DecidableEq, Repr

/-- Result of one `usersLookup` batch call: resolved accounts plus the
rate-limit observation attached to that response. -/
structure ApiResult where
  results : List User
  rateLimit : Option RateLimitStatus
deriving DecidableEq, Inhabited, Repr

/-- The `result` record sent by workers on the `out` channel. -/
structure WorkerResult where
  apiResult : ApiResult
  err : Option GoErr
deriving DecidableEq, Inhabited, Repr

/-- Return value of `followersTimeline`: `(timeline, *rateLimitStatus,
error)`. `none` models a nil pointer / nil slice on the error path. -/
structure FTReturn where
  timeline : Option (List Tweet)
  rateLimit : Option RateLimitStatus
  err : Option GoErr
deriving DecidableEq, Inhabited, Repr

/-- Creation time used by the `timeline.Less` comparator: on a parse
failure Go ignores the error and compares the zero `time.Time`,
modelled by the default value `0`. -/
def tweetTimeD (parse : String → Option Int) (t : Tweet) : Int :=
  (parse t.createdAt).getD 0

/-! ## List swap

`data.Swap(i, j)` on the `timeline` slice (and the in-place shuffle in
`pickIds`) exchange two positions; out-of-range indices never occur in
the Go code and leave the list unchanged here. -/

def lswap (l : List α) (i j : Nat) : List α :=
  match l[i]?, l[j]? with
  | some a, some b => (l.set i b).set j a
  | _, _ => l

theorem lswap_of_getElem (l : List α) (i j : Nat) (a b : α)
    (h1 : l[i]? = some a) (h2 : l[j]? = some b) :
    lswap l i j = (l.set i b).set j a := by
  unfold lswap
  rw [h1, h2]

theorem length_lswap (l : List α) (i j : Nat) :
    (lswap l i j).length = l.length := by
  unfold lswap
  cases h1 : l[i]? <;> cases h2 : l[j]? <;> simp

theorem cons_set_perm (xs : List α) (k : Nat) (x b : α)
    (h : xs[k]? = some b) : List.Perm (b :: xs.set k x) (x :: xs) := by
  induction xs generalizing k with
  | nil => simp at h
  | cons y t ih =>
    cases k with
    | zero =>
      simp at h
      subst h
      simpa using List.Perm.swap x y t
    | succ m =>
      simp at h
      have step := ih m h
      have e : (y :: t).set (m + 1) x = y :: t.set m x := by simp
      rw [e]
      refine List.Perm.trans (List.Perm.swap y b _) ?_
      refine List.Perm.trans (List.Perm.cons y step) ?_
      exact List.Perm.swap x y t

theorem lswap_perm (l : List α) (i j : Nat) : List.Perm (lswap l i j) l := by
  induction l generalizing i j with
  | nil => unfold lswap; simp
  | cons x xs ih =>
    cases i with
    | zero =>
      cases j with
      | zero =>
        unfold lswap
        simp
      | succ m =>
        cases h : xs[m]? with
        | none =>
          unfold lswap
          simp [h]
        | some b =>
          rw [lswap_of_getElem (x :: xs) 0 (m + 1) x b (by simp) (by simpa using h)]
          have e : ((x :: xs).set 0 b).set (m + 1) x = b :: xs.set m x := by
            simp
          rw [e]
          exact cons_set_perm xs m x b h
    | succ n =>
      cases j with
      | zero =>
        cases h : xs[n]? with
        | none =>
          unfold lswap
          simp [h]
        | some a =>
          rw [lswap_of_getElem (x :: xs) (n + 1) 0 a x (by simpa using h) (by simp)]
          have e : (((x :: xs).set (n + 1) x).set 0 a) = a :: xs.set n x := by
            simp
          rw [e]
          exact cons_set_perm xs n x a h
      | succ m =>
        have hd : lswap (x :: xs) (n + 1) (m + 1) = x :: lswap xs n m := by
          unfold lswap
          cases h1 : xs[n]? <;> cases h2 : xs[m]? <;> simp [h1, h2]
        rw [hd]
        exact List.Perm.cons x (ih n m)

/-! ## Classic Go `sort.Sort`

`followersTimeline` ends with `sort.Sort(timeline)` (bot.go:133), where
the `timeline` type supplies `Len`, `Less` and `Swap` (bot.go:225-240).
`sort.Sort` is Go standard-library code (external to the repository)
documented as not guaranteed to be stable.  The definitions below embed
the classic deterministic implementation used by Go 1.5-1.18 (the
repository predates Go 1.19's pdqsort): an intro-sort that, for ranges
of at most 12 elements, runs a gap-6 shell-sort pass followed by
insertion sort, and otherwise partitions around a median-of-three pivot
with a depth-limited heap-sort fallback.  Loops are written with an
explicit structural fuel argument that is always at least the number of
iterations the Go loop performs.  The element order is supplied by a
key `k : α → Int`; the repository instantiates it with the tweet's
parsed creation time (zero on parse failure, bot.go:231-236). -/

/-- Comparator `data.Less(i, j)` on a list, via the key `k`. -/
def lessAt [Inhabited α] (k : α → Int) (l : List α) (i j : Nat) : Bool :=
  decide (k (l.getD i default) < k (l.getD j default))

/-- Inner loop of `insertionSort`:
`for j := i; j > a && data.Less(j, j-1); j-- { data.Swap(j, j-1) }`. -/
def insInner [Inhabited α] (k : α → Int) (lo : Nat) : Nat → List α → List α
  | 0, l => l
  | m + 1, l =>
    if lo < m + 1 then
      if lessAt k l (m + 1) m then insInner k lo m (lswap l (m + 1) m) else l
    else l

/-- Outer loop of `insertionSort`: `for i := a+1; i < b; i++`; the first
argument is fuel. -/
def insLoop [Inhabited α] (k : α → Int) (lo hi : Nat) :
    Nat → Nat → List α → List α
  | 0, _, l => l
  | f + 1, i, l =>
    if i < hi then insLoop k lo hi f (i + 1) (insInner k lo i l) else l

/-- Function `insertionSort(data, a, b)` from Go's sort.go. -/
def insertionSortRange [Inhabited α] (k : α → Int) (lo hi : Nat)
    (l : List α) : List α :=
  insLoop k lo hi (hi - lo) (lo + 1) l

/-- Gap-6 shell-sort pass run before insertion sort on ranges ≤ 12:
`for i := a+6; i < b; i++ { if data.Less(i, i-6) { data.Swap(i, i-6) } }`. -/
def shellLoop [Inhabited α] (k : α → Int) (hi : Nat) :
    Nat → Nat → List α → List α
  | 0, _, l => l
  | f + 1, i, l =>
    if i < hi then
      shellLoop k hi f (i + 1)
        (if lessAt k l i (i - 6) then lswap l i (i - 6) else l)
    else l

def shellPass [Inhabited α] (k : α → Int) (lo hi : Nat) (l : List α) :
    List α :=
  shellLoop k hi (hi - lo) (lo + 6) l

/-- Function `siftDown(data, root, hi, first)`; fuel bounds the number of times
the root can move down. -/
def siftDown [Inhabited α] (k : α → Int) (first hi : Nat) :
    Nat → Nat → List α → List α
  | 0, _, l => l
  | f + 1, root, l =>
    let child := 2 * root + 1
    if child ≥ hi then l
    else
      let child :=
        if child + 1 < hi ∧ lessAt k l (first + child) (first + child + 1)
        then child + 1 else child
      if lessAt k l (first + root) (first + child) then
        siftDown k first hi f child (lswap l (first + root) (first + child))
      else l

/-- Heap-building loop of `heapSort`:
`for i := (hi-1)/2; i >= 0; i-- { siftDown(data, i, hi, first) }`;
the fuel argument is the (inclusive) countdown index plus one. -/
def heapBuild [Inhabited α] (k : α → Int) (first hi : Nat) :
    Nat → List α → List α
  | 0, l => l
  | i + 1, l => heapBuild k first hi i (siftDown k first hi hi i l)

/-- Pop loop of `heapSort`:
`for i := hi-1; i >= 0; i-- { data.Swap(first, first+i); siftDown(data, lo, i, first) }`. -/
def heapPop [Inhabited α] (k : α → Int) (first : Nat) :
    Nat → List α → List α
  | 0, l => l
  | i + 1, l =>
    heapPop k first i (siftDown k first i i 0 (lswap l first (first + i)))

/-- Function `heapSort(data, a, b)` from Go's sort.go. -/
def heapSortRange [Inhabited α] (k : α → Int) (lo hi : Nat) (l : List α) :
    List α :=
  heapPop k lo (hi - lo) (heapBuild k lo (hi - lo) ((hi - lo - 1) / 2 + 1) l)

/-- Guarded swap `if data.Less(i, j) { data.Swap(i, j) }`. -/
def condSwap [Inhabited α] (k : α → Int) (i j : Nat) (l : List α) :
    List α :=
  if lessAt k l i j then lswap l i j else l

/-- Function `medianOfThree(data, m1, m0, m2)`: moves the median of the three
positions into `m1`. -/
def medianOfThree [Inhabited α] (k : α → Int) (m1 m0 m2 : Nat)
    (l : List α) : List α :=
  let l := condSwap k m1 m0 l
  if lessAt k l m2 m1 then condSwap k m1 m0 (lswap l m2 m1) else l

/-- Skip loop of `doPivot`: `for ; a < c && data.Less(a, pivot); a++`. -/
def skipLt [Inhabited α] (k : α → Int) (pivot c : Nat) :
    Nat → Nat → List α → Nat
  | 0, a, _ => a
  | f + 1, a, l =>
    if a < c ∧ lessAt k l a pivot then skipLt k pivot c f (a + 1) l else a

/-- Advance of `b` in `doPivot`'s partition loop:
`for ; b < c && !data.Less(pivot, b); b++`. -/
def bAdv [Inhabited α] (k : α → Int) (pivot c : Nat) :
    Nat → Nat → List α → Nat
  | 0, b, _ => b
  | f + 1, b, l =>
    if b < c ∧ ¬ lessAt k l pivot b then bAdv k pivot c f (b + 1) l else b

/-- Retreat of `c` in `doPivot`'s partition loop:
`for ; b < c && data.Less(pivot, c-1); c--`. -/
def cDec [Inhabited α] (k : α → Int) (pivot b : Nat) :
    Nat → Nat → List α → Nat
  | 0, c, _ => c
  | f + 1, c, l =>
    if b < c ∧ lessAt k l pivot (c - 1) then cDec k pivot b f (c - 1) l else c

/-- Main partition loop of `doPivot` (swap `b`/`c-1` until the pointers
cross). -/
def partLoop [Inhabited α] (k : α → Int) (pivot : Nat) :
    Nat → Nat → Nat → List α → Nat × Nat × List α
  | 0, b, c, l => (b, c, l)
  | f + 1, b, c, l =>
    let b := bAdv k pivot c c b l
    let c2 := cDec k pivot b c c l
    if b ≥ c2 then (b, c2, l)
    else partLoop k pivot f (b + 1) (c2 - 1) (lswap l b (c2 - 1))

/-- Retreat of `b` in the duplicate-protection loop:
`for ; a < b && !data.Less(b-1, pivot); b--`. -/
def protBDec [Inhabited α] (k : α → Int) (pivot a : Nat) :
    Nat → Nat → List α → Nat
  | 0, b, _ => b
  | f + 1, b, l =>
    if a < b ∧ ¬ lessAt k l (b - 1) pivot then protBDec k pivot a f (b - 1) l
    else b

/-- Advance of `a` in the duplicate-protection loop:
`for ; a < b && data.Less(a, pivot); a++`. -/
def protAInc [Inhabited α] (k : α → Int) (pivot b : Nat) :
    Nat → Nat → List α → Nat
  | 0, a, _ => a
  | f + 1, a, l =>
    if a < b ∧ lessAt k l a pivot then protAInc k pivot b f (a + 1) l else a

/-- Duplicate-protection loop of `doPivot`. Returns the final `b` and
the list. -/
def protLoop [Inhabited α] (k : α → Int) (pivot : Nat) :
    Nat → Nat → Nat → List α → Nat × List α
  | 0, _, b, l => (b, l)
  | f + 1, a, b, l =>
    let b2 := protBDec k pivot a b b l
    let a2 := protAInc k pivot b2 b2 a l
    if a2 ≥ b2 then (b2, l)
    else protLoop k pivot f (a2 + 1) (b2 - 1) (lswap l a2 (b2 - 1))

/-- Pivot choice at the top of `doPivot`: Tukey ninther for ranges above
40 elements, then `medianOfThree(data, lo, m, hi-1)`. -/
def pivotChoose [Inhabited α] (k : α → Int) (lo m hi : Nat) (l : List α) :
    List α :=
  let l :=
    if hi - lo > 40 then
      let s := (hi - lo) / 8
      let l := medianOfThree k lo (lo + s) (lo + 2 * s) l
      let l := medianOfThree k m (m - s) (m + s) l
      medianOfThree k (hi - 1) (hi - 1 - s) (hi - 1 - 2 * s) l
    else l
  medianOfThree k lo m (hi - 1) l

/-- Duplicate heuristics of `doPivot`: computes the `protect` flag and
the adjusted `b`, `c` and data (`protect := hi-c < 5`, then the
three equal-to-pivot probes when `hi-c < (hi-lo)/4`). -/
def dupsBlock [Inhabited α] (k : α → Int) (pivot m lo hi b c : Nat)
    (l : List α) : Bool × Nat × Nat × List α :=
  if hi - c < 5 then (true, b, c, l)
  else if hi - c < (hi - lo) / 4 then
    let r3 :=
      if ¬ lessAt k l pivot (hi - 1) then (c + 1, 1, lswap l c (hi - 1))
      else (c, 0, l)
    let c := r3.1
    let dups1 : Nat := r3.2.1
    let l := r3.2.2
    let r4 := if ¬ lessAt k l (b - 1) pivot then (b - 1, 1) else (b, 0)
    let b := r4.1
    let dups2 : Nat := r4.2
    let r5 :=
      if ¬ lessAt k l m pivot then (b - 1, 1, lswap l m (b - 1))
      else (b, 0, l)
    let b := r5.1
    let dups3 : Nat := r5.2.1
    let l := r5.2.2
    (decide (dups1 + dups2 + dups3 > 1), b, c, l)
  else (false, b, c, l)

/-- Function `doPivot(data, lo, hi)`: returns `(midlo, midhi, data)`. -/
def doPivot [Inhabited α] (k : α → Int) (lo hi : Nat) (l : List α) :
    Nat × Nat × List α :=
  let m := (lo + hi) / 2
  let l := pivotChoose k lo m hi l
  let pivot := lo
  let a := skipLt k pivot (hi - 1) (hi - 1) (lo + 1) l
  let r := partLoop k pivot hi a (hi - 1) l
  let rd := dupsBlock k pivot m lo hi r.1 r.2.1 r.2.2
  let r6 :=
    if rd.1 then protLoop k pivot hi a rd.2.1 rd.2.2.2
    else (rd.2.1, rd.2.2.2)
  (r6.1 - 1, rd.2.2.1, lswap r6.2 pivot (r6.1 - 1))

/-- Function `quickSort(data, a, b, maxDepth)`: the depth argument is decremented
on every partitioning step and triggers the heap-sort fallback at 0;
ranges of at most 12 elements take the shell-pass + insertion-sort
path. -/
def qsGo [Inhabited α] (k : α → Int) : Nat → Nat → Nat → List α → List α
  | 0, lo, hi, l =>
    if hi - lo > 12 then heapSortRange k lo hi l
    else if hi - lo > 1 then insertionSortRange k lo hi (shellPass k lo hi l)
    else l
  | d + 1, lo, hi, l =>
    if hi - lo > 12 then
      let r := doPivot k lo hi l
      let mlo := r.1
      let mhi := r.2.1
      let l := r.2.2
      if mlo - lo < hi - mhi then
        qsGo k d mhi hi (qsGo k d lo mlo l)
      else
        qsGo k d lo mlo (qsGo k d mhi hi l)
    else if hi - lo > 1 then insertionSortRange k lo hi (shellPass k lo hi l)
    else l

/-- Loop of `maxDepth(n)` — count how often `n` can be halved before
reaching 0 — written with fuel (the first argument; `n` halvings
always suffice). -/
def depthLoop : Nat → Nat → Nat
  | 0, _ => 0
  | f + 1, i => if i = 0 then 0 else depthLoop f (i / 2) + 1

def maxDepthGo (n : Nat) : Nat := 2 * depthLoop n n

/-- Entry point `sort.Sort(data)` on a list ordered by the key `k`. -/
def goSortSort [Inhabited α] (k : α → Int) (l : List α) : List α :=
  qsGo k (maxDepthGo l.length) 0 l.length l

/-! ### The embedded sort only permutes its input

Every mutation performed by the algorithm is a `Swap`, so each stage
returns a permutation of what it was given. -/

theorem ite_lswap_perm (c : Prop) [Decidable c] (l : List α) (i j : Nat) :
    List.Perm (if c then lswap l i j else l) l := by
  split
  · exact lswap_perm l i j
  · exact List.Perm.refl l

theorem insInner_perm [Inhabited α] (k : α → Int) (lo : Nat) (m : Nat)
    (l : List α) : List.Perm (insInner k lo m l) l := by
  induction m generalizing l with
  | zero => exact List.Perm.refl l
  | succ m ih =>
    simp only [insInner]
    split
    · split
      · exact List.Perm.trans (ih _) (lswap_perm l (m + 1) m)
      · exact List.Perm.refl l
    · exact List.Perm.refl l

theorem insLoop_perm [Inhabited α] (k : α → Int) (lo hi : Nat) (f i : Nat)
    (l : List α) : List.Perm (insLoop k lo hi f i l) l := by
  induction f generalizing i l with
  | zero => exact List.Perm.refl l
  | succ f ih =>
    simp only [insLoop]
    split
    · exact List.Perm.trans (ih _ _) (insInner_perm k lo i l)
    · exact List.Perm.refl l

theorem insertionSortRange_perm [Inhabited α] (k : α → Int) (lo hi : Nat)
    (l : List α) : List.Perm (insertionSortRange k lo hi l) l :=
  insLoop_perm k lo hi (hi - lo) (lo + 1) l

theorem shellLoop_perm [Inhabited α] (k : α → Int) (hi : Nat) (f i : Nat)
    (l : List α) : List.Perm (shellLoop k hi f i l) l := by
  induction f generalizing i l with
  | zero => exact List.Perm.refl l
  | succ f ih =>
    simp only [shellLoop]
    split
    · exact List.Perm.trans (ih _ _)
        (ite_lswap_perm (lessAt k l i (i - 6) = true) l i (i - 6))
    · exact List.Perm.refl l

theorem shellPass_perm [Inhabited α] (k : α → Int) (lo hi : Nat)
    (l : List α) : List.Perm (shellPass k lo hi l) l :=
  shellLoop_perm k hi (hi - lo) (lo + 6) l

theorem siftDown_perm [Inhabited α] (k : α → Int) (first hi : Nat)
    (f root : Nat) (l : List α) :
    List.Perm (siftDown k first hi f root l) l := by
  induction f generalizing root l with
  | zero => exact List.Perm.refl l
  | succ f ih =>
    have H : ∀ (c : Bool) (r i j : Nat),
        List.Perm (if c then siftDown k first hi f r (lswap l i j) else l)
          l := by
      intro c r i j
      split
      · exact List.Perm.trans (ih r _) (lswap_perm l i j)
      · exact List.Perm.refl l
    simp only [siftDown]
    split
    · exact List.Perm.refl l
    · exact H _ _ _ _

theorem heapBuild_perm [Inhabited α] (k : α → Int) (first hi : Nat)
    (f : Nat) (l : List α) : List.Perm (heapBuild k first hi f l) l := by
  induction f generalizing l with
  | zero => exact List.Perm.refl l
  | succ f ih =>
    exact List.Perm.trans (ih _) (siftDown_perm k first hi hi f l)

theorem heapPop_perm [Inhabited α] (k : α → Int) (first : Nat) (f : Nat)
    (l : List α) : List.Perm (heapPop k first f l) l := by
  induction f generalizing l with
  | zero => exact List.Perm.refl l
  | succ f ih =>
    refine List.Perm.trans (ih _) ?_
    exact List.Perm.trans (siftDown_perm k first f f 0 _)
      (lswap_perm l first (first + f))

theorem heapSortRange_perm [Inhabited α] (k : α → Int) (lo hi : Nat)
    (l : List α) : List.Perm (heapSortRange k lo hi l) l := by
  unfold heapSortRange
  exact List.Perm.trans (heapPop_perm k lo (hi - lo) _)
    (heapBuild_perm k lo (hi - lo) _ l)

theorem condSwap_perm [Inhabited α] (k : α → Int) (i j : Nat)
    (l : List α) : List.Perm (condSwap k i j l) l := by
  unfold condSwap
  split
  · exact lswap_perm l i j
  · exact List.Perm.refl l

theorem medianOfThree_perm [Inhabited α] (k : α → Int) (m1 m0 m2 : Nat)
    (l : List α) : List.Perm (medianOfThree k m1 m0 m2 l) l := by
  unfold medianOfThree
  dsimp only
  refine List.Perm.trans ?_ (condSwap_perm k m1 m0 l)
  split
  · refine List.Perm.trans (condSwap_perm k m1 m0 _) ?_
    exact lswap_perm _ m2 m1
  · exact List.Perm.refl _

theorem pivotChoose_perm [Inhabited α] (k : α → Int) (lo m hi : Nat)
    (l : List α) : List.Perm (pivotChoose k lo m hi l) l := by
  unfold pivotChoose
  refine List.Perm.trans (medianOfThree_perm k lo m (hi - 1) _) ?_
  split
  · refine List.Perm.trans (medianOfThree_perm k _ _ _ _) ?_
    refine List.Perm.trans (medianOfThree_perm k _ _ _ _) ?_
    exact medianOfThree_perm k _ _ _ _
  · exact List.Perm.refl l

theorem partLoop_perm [Inhabited α] (k : α → Int) (pivot : Nat)
    (f b c : Nat) (l : List α) :
    List.Perm (partLoop k pivot f b c l).2.2 l := by
  induction f generalizing b c l with
  | zero => exact List.Perm.refl l
  | succ f ih =>
    simp only [partLoop]
    split
    · exact List.Perm.refl l
    · exact List.Perm.trans (ih _ _ _) (lswap_perm l _ _)

theorem protLoop_perm [Inhabited α] (k : α → Int) (pivot : Nat)
    (f a b : Nat) (l : List α) :
    List.Perm (protLoop k pivot f a b l).2 l := by
  induction f generalizing a b l with
  | zero => exact List.Perm.refl l
  | succ f ih =>
    simp only [protLoop]
    split
    · exact List.Perm.refl l
    · exact List.Perm.trans (ih _ _ _) (lswap_perm l _ _)

theorem dupsBlock_perm [Inhabited α] (k : α → Int)
    (pivot m lo hi b c : Nat) (l : List α) :
    List.Perm (dupsBlock k pivot m lo hi b c l).2.2.2 l := by
  unfold dupsBlock
  split
  · exact List.Perm.refl l
  · split
    · dsimp only
      split
      · dsimp only
        split
        · exact List.Perm.trans (lswap_perm _ _ _) (lswap_perm l _ _)
        · exact lswap_perm l _ _
      · dsimp only
        split
        · exact lswap_perm l _ _
        · exact List.Perm.refl l
    · exact List.Perm.refl l

theorem doPivot_perm [Inhabited α] (k : α → Int) (lo hi : Nat)
    (l : List α) : List.Perm (doPivot k lo hi l).2.2 l := by
  unfold doPivot
  dsimp only
  set l1 := pivotChoose k lo ((lo + hi) / 2) hi l with hl1
  set a := skipLt k lo (hi - 1) (hi - 1) (lo + 1) l1 with ha
  set r := partLoop k lo hi a (hi - 1) l1 with hr
  set rd := dupsBlock k lo ((lo + hi) / 2) lo hi r.1 r.2.1 r.2.2 with hrd
  have base : List.Perm rd.2.2.2 l := by
    refine List.Perm.trans (dupsBlock_perm k lo ((lo + hi) / 2) lo hi _ _ _) ?_
    refine List.Perm.trans (partLoop_perm k lo hi a (hi - 1) l1) ?_
    exact pivotChoose_perm k lo ((lo + hi) / 2) hi l
  refine List.Perm.trans (lswap_perm _ _ _) ?_
  split
  · exact List.Perm.trans (protLoop_perm k lo hi a rd.2.1 rd.2.2.2) base
  · exact base

theorem qsGo_perm [Inhabited α] (k : α → Int) (d lo hi : Nat)
    (l : List α) : List.Perm (qsGo k d lo hi l) l := by
  induction d generalizing lo hi l with
  | zero =>
    simp only [qsGo]
    split
    · exact heapSortRange_perm k lo hi l
    · split
      · exact List.Perm.trans (insertionSortRange_perm k lo hi _)
          (shellPass_perm k lo hi l)
      · exact List.Perm.refl l
  | succ d ih =>
    simp only [qsGo]
    split
    · split
      · refine List.Perm.trans (ih _ _ _) ?_
        refine List.Perm.trans (ih _ _ _) ?_
        exact doPivot_perm k lo hi l
      · refine List.Perm.trans (ih _ _ _) ?_
        refine List.Perm.trans (ih _ _ _) ?_
        exact doPivot_perm k lo hi l
    · split
      · exact List.Perm.trans (insertionSortRange_perm k lo hi _)
          (shellPass_perm k lo hi l)
      · exact List.Perm.refl l

/-- The classic `sort.Sort` algorithm returns a permutation of its
input. -/
theorem goSortSort_perm [Inhabited α] (k : α → Int) (l : List α) :
    List.Perm (goSortSort k l) l :=
  qsGo_perm k (maxDepthGo l.length) 0 l.length l

/-! ## The fetcher: `followersTimeline` (bot.go:129-223)

The result-collection loop is modelled over the list of worker results
in the order they arrive on the `out` channel. -/

/-- Rate-limit accumulator update (bot.go:201-205): the incoming
observation replaces the accumulator exactly when its reset is strictly
later or its remaining count strictly smaller. -/
def mergeRL (acc incoming : RateLimitStatus) : RateLimitStatus :=
  if incoming.reset > acc.reset ∨ incoming.remaining < acc.remaining
  then incoming else acc

/-- Accumulation of one batch's users (bot.go:207-219): for each user
carrying a status, parse its creation time (a failure aborts the whole
call), and append the status (with its owning user attached) when the
time is strictly after `since`. -/
def accumUsers (parse : String → Option Int) (since : Int)
    (tl : List Tweet) : List User → Except GoErr (List Tweet)
  | [] => .ok tl
  | u :: rest =>
    match u.status with
    | none => accumUsers parse since tl rest
    | some tweet =>
      match parse tweet.createdAt with
      | none => .error (.parseFail tweet.createdAt)
      | some t =>
        if t > since then
          accumUsers parse since (tl ++ [{ tweet with user := u.core }]) rest
        else accumUsers parse since tl rest

/-- Drain loop over the `out` channel (bot.go:190-221): first error
wins; otherwise merge the rate-limit observation (when present) and
accumulate the batch's statuses. -/
def drain (parse : String → Option Int) (since : Int) :
    List WorkerResult → List Tweet × RateLimitStatus →
    Except GoErr (List Tweet × RateLimitStatus)
  | [], acc => .ok acc
  | r :: rest, (tl, rl) =>
    match r.err with
    | some e => .error e
    | none =>
      let rl :=
        match r.apiResult.rateLimit with
        | some incoming => mergeRL rl incoming
        | none => rl
      match accumUsers parse since tl r.apiResult.results with
      | .error e => .error e
      | .ok tl => drain parse since rest (tl, rl)

/-- Body of `followersTimeline` from the point where batch results arrive
(bot.go:129-135, 189-223): drain all results starting from the
zero-valued rate-limit accumulator, then sort the accumulated timeline
(the deferred `sort.Sort`, skipped when the slice is still nil).  The
final sort is abstracted as `sortFn`; the Go binary instantiates it
with `sort.Sort` on the `timeline` interface, i.e. `goSortSort`
keyed by `tweetTimeD parse`. -/
def followersTimeline (parse : String → Option Int)
    (sortFn : List Tweet → List Tweet) (since : Int)
    (arrivals : List WorkerResult) : FTReturn :=
  match drain parse since arrivals ([], ⟨0, 0, 0⟩) with
  | .error e => ⟨none, none, some e⟩
  | .ok (tl, rl) =>
    ⟨some (if tl.isEmpty then tl else sortFn tl), some rl, none⟩

/-- Specification-side filter: the statuses of `us` whose parsed
creation time is strictly after `since`, with owners attached, in
order. -/
def filteredStatuses (parse : String → Option Int) (since : Int)
    (us : List User) : List Tweet :=
  us.filterMap (fun u =>
    match u.status with
    | none => none
    | some tweet =>
      match parse tweet.createdAt with
      | none => none
      | some t =>
        if t > since then some { tweet with user := u.core } else none)

/-- A worker result is clean when it carries no error and every status
it resolved has a parseable creation timestamp. -/
def CleanResult (parse : String → Option Int) (r : WorkerResult) : Prop :=
  r.err = none ∧
    ∀ u ∈ r.apiResult.results, ∀ tweet, u.status = some tweet →
      (parse tweet.createdAt).isSome

instance (parse : String → Option Int) (r : WorkerResult) :
    Decidable (CleanResult parse r) := by
  unfold CleanResult
  infer_instance

/-- Rate-limit observations carried by a list of worker results. -/
def observations (arrivals : List WorkerResult) : List RateLimitStatus :=
  arrivals.filterMap (fun r => r.apiResult.rateLimit)

/-- Users resolved by a list of worker results, in arrival order. -/
def resolvedUsers (arrivals : List WorkerResult) : List User :=
  (arrivals.map (fun r => r.apiResult.results)).flatten

/-- Documented contract of the external library sort invoked by
`followersTimeline` (Go `sort.Sort`): the data is permuted so that no
pair of elements is inverted with respect to the `timeline.Less`
comparator (creation times with the zero time on parse failure,
bot.go:231-236).  Stability is deliberately not part of this contract:
`sort.Sort` does not guarantee it. -/
def GoSortContract (parse : String → Option Int)
    (sortFn : List Tweet → List Tweet) : Prop :=
  ∀ l, List.Perm (sortFn l) l ∧
    (sortFn l).Pairwise
      (fun a b => ¬ tweetTimeD parse b < tweetTimeD parse a)

/-! ## Batch producer (bot.go:154-166) -/

/-- The producer goroutine slices `ids[m:n]` with `n = min(m+100, len)`
and stops as soon as `n - m < 1`, i.e. it emits successive chunks of at
most 100 identifiers until the remainder is empty. -/
def inputBatches (ids : List Int) : List (List Int) :=
  if h : ids = [] then []
  else ids.take 100 :: inputBatches (ids.drop 100)
termination_by ids.length
decreasing_by
  simp only [List.length_drop]
  have hp : 0 < ids.length := List.length_pos.mpr h
  omega

/-! ## Scheduler: `Run` (bot.go:62-127) -/

/-- Watermark advance (bot.go:97-103): when the timeline is non-empty,
re-parse the creation time of its last element (a parse failure aborts
`Run`); otherwise the watermark is left unchanged. -/
def updateWatermark (parse : String → Option Int) (old : Int)
    (tl : List Tweet) : Except GoErr Int :=
  match tl.getLast? with
  | none => .ok old
  | some t =>
    match parse t.createdAt with
    | none => .error (.parseFail t.createdAt)
    | some v => .ok v

/-- Wait-interval computation (bot.go:109-119).  `Int.tdiv` is Go's
truncating `int64` division. -/
def calcMaxWait (latest current : RateLimitStatus) (now : Int) : Int :=
  let diff : Int := (latest.remaining : Int) - (current.remaining : Int)
  if diff > 0 then
    let num0 : Int := Int.tdiv (current.remaining : Int) diff
    let num : Int := if num0 = 0 then num0 + 1 else num0
    let wait : Int := Int.tdiv (current.reset - now) num
    if wait > 10 then wait else 10
  else 10

/-! ## Identifier cache (utils.go) -/

/-- Default ttl `15 * time.Minute`, in the second-valued time scale used here. -/
def defaultKeepDuration : Int := 15 * 60

/-- Store type `idsStore` (utils.go:8-11). -/
structure IdsStore where
  expires : Int
  ids : List Int
deriving DecidableEq, Inhabited, Repr

/-- Method `setIds` (utils.go:13-19): a zero duration falls back to the
15-minute default; stores the identifiers and refreshes the expiry. -/
def setIds (store : IdsStore) (now : Int) (ids : List Int) (d : Int) :
    IdsStore :=
  let d := if d = 0 then defaultKeepDuration else d
  { store with ids := ids, expires := now + d }

/-- In-place Fisher-Yates loop of `pickIds` (utils.go:27-30):
`for i := n-1; i >= 0; i-- { j := rand.Intn(i+1); swap(i, j) }`.
The random source is an oracle `r`; Go guarantees `r i ≤ i`. -/
def shuffleLoop (r : Nat → Nat) : Nat → List Int → List Int
  | 0, ids => ids
  | i + 1, ids => shuffleLoop r i (lswap ids i (r i))

/-- Method `pickIds` (utils.go:21-37): empty when `now` is past the expiry;
otherwise shuffle the stored identifiers in place and return the prefix
of length `min(len, 1000)`.  The second component is the store after
the in-place shuffle. -/
def pickIds (store : IdsStore) (now : Int) (r : Nat → Nat) :
    List Int × IdsStore :=
  if now > store.expires then ([], store)
  else
    let shuffled := shuffleLoop r store.ids.length store.ids
    let maxNum := if shuffled.length < 1000 then shuffled.length else 1000
    (shuffled.take maxNum, { store with ids := shuffled })

/-! ## Worker pool state machine (bot.go:147-187)

Small-step model of the fan-out phase: the producer goroutine feeding
the unbuffered `in` channel, `numWorkers = 5` workers ranging over it,
the `out` channel read by the collector, and the `cancel` channel
closed (by `defer`) when `followersTimeline` returns.  A worker checks
`cancel` only in the `select` around its result send, so receiving from
`in` is not guarded by cancellation. -/

def numWorkers : Nat := 5

inductive WState where
  | waitingRecv
  | looking (batch : List Int)
  | sending
  | done
deriving DecidableEq, Repr

structure PoolState where
  pending : List (List Int)
  workers : List WState
  canceled : Bool
  lookups : Nat
deriving DecidableEq, Repr

/-- Initial pool state: all batches pending, five workers blocked on
`range in`, no cancellation, no `usersLookup` calls yet. -/
def initPool (batches : List (List Int)) : PoolState :=
  ⟨batches, List.replicate numWorkers WState.waitingRecv, false, 0⟩

/-- One scheduler-interleaving step of the pool. `recv` pairs the
producer's `in <- ids[m:n]` with a worker's `range in` and starts the
`usersLookup` call (counted by `lookups`) — it is enabled regardless of
cancellation.  `send` models the collector reading a result (only
before it has returned); `cancelExit` is the `<-cancel` branch of the
worker's `select`; `exitClosed` is `range in` ending after `close(in)`;
`cancelHappens` is the deferred `close(cancel)` when the collector
returns. -/
inductive PoolStep : PoolState → PoolState → Prop where
  | recv (s : PoolState) (i : Nat) (b : List Int) (rest : List (List Int))
      (hw : s.workers[i]? = some WState.waitingRecv)
      (hp : s.pending = b :: rest) :
      PoolStep s { s with pending := rest,
                          workers := s.workers.set i (WState.looking b),
                          lookups := s.lookups + 1 }
  | finish (s : PoolState) (i : Nat) (b : List Int)
      (hw : s.workers[i]? = some (WState.looking b)) :
      PoolStep s { s with workers := s.workers.set i WState.sending }
  | send (s : PoolState) (i : Nat)
      (hw : s.workers[i]? = some WState.sending)
      (hc : s.canceled = false) :
      PoolStep s { s with workers := s.workers.set i WState.waitingRecv }
  | cancelExit (s : PoolState) (i : Nat)
      (hw : s.workers[i]? = some WState.sending)
      (hc : s.canceled = true) :
      PoolStep s { s with workers := s.workers.set i WState.done }
  | exitClosed (s : PoolState) (i : Nat)
      (hw : s.workers[i]? = some WState.waitingRecv)
      (hp : s.pending = []) :
      PoolStep s { s with workers := s.workers.set i WState.done }
  | cancelHappens (s : PoolState) (hc : s.canceled = false) :
      PoolStep s { s with canceled := true }

/-- Reachability by any number of pool steps. -/
def PoolReaches (s t : PoolState) : Prop := Relation.ReflTransGen PoolStep s t

/-- Worker-state predicates. -/
def isLooking : WState → Bool
  | WState.looking _ => true
  | _ => false

def isWaiting : WState → Bool
  | WState.waitingRecv => true
  | _ => false

/-- Number of workers currently executing a `usersLookup` call. -/
def lookingCount (s : PoolState) : Nat :=
  s.workers.countP isLooking

/-- Number of workers blocked on `range in`. -/
def waitingCount (s : PoolState) : Nat :=
  s.workers.countP isWaiting

/-! ## Characterization of the drain loop -/

theorem filteredStatuses_nil (parse : String → Option Int) (since : Int) :
    filteredStatuses parse since [] = [] := rfl

theorem filteredStatuses_append (parse : String → Option Int) (since : Int)
    (us vs : List User) :
    filteredStatuses parse since (us ++ vs) =
      filteredStatuses parse since us ++ filteredStatuses parse since vs :=
  List.filterMap_append us vs _

theorem accumUsers_cons (parse : String → Option Int) (since : Int)
    (tl : List Tweet) (u : User) (rest : List User) :
    accumUsers parse since tl (u :: rest) =
      match u.status with
      | none => accumUsers parse since tl rest
      | some tweet =>
        match parse tweet.createdAt with
        | none => .error (.parseFail tweet.createdAt)
        | some t =>
          if t > since then
            accumUsers parse since
              (tl ++ [{ tweet with user := u.core }]) rest
          else accumUsers parse since tl rest := rfl

/-- When every status in the batch parses, accumulation succeeds and
appends exactly the strictly-after-`since` statuses, in order. -/
theorem accumUsers_ok (parse : String → Option Int) (since : Int)
    (tl : List Tweet) (us : List User)
    (h : ∀ u ∈ us, ∀ tweet, u.status = some tweet →
      (parse tweet.createdAt).isSome) :
    accumUsers parse since tl us =
      .ok (tl ++ filteredStatuses parse since us) := by
  induction us generalizing tl with
  | nil => simp [accumUsers, filteredStatuses]
  | cons u rest ih =>
    have hrest : ∀ v ∈ rest, ∀ tweet, v.status = some tweet →
        (parse tweet.createdAt).isSome := by
      intro v hv
      exact h v (List.mem_cons_of_mem u hv)
    unfold filteredStatuses
    rw [List.filterMap_cons]
    cases hu : u.status with
    | none =>
      simp only [accumUsers_cons, hu]
      rw [ih tl hrest]
      rfl
    | some tweet =>
      have hps : (parse tweet.createdAt).isSome :=
        h u (List.mem_cons_self u rest) tweet hu
      obtain ⟨v, hv⟩ := Option.isSome_iff_exists.mp hps
      by_cases hgt : v > since
      · simp only [accumUsers_cons, hu, hv, if_pos hgt]
        rw [ih _ hrest]
        unfold filteredStatuses
        simp
      · simp only [accumUsers_cons, hu, hv, if_neg hgt]
        rw [ih tl hrest]
        rfl

/-- When every arriving result is clean, the drain loop succeeds,
accumulates exactly the filter of all resolved users in arrival order,
and folds the rate-limit merge over the attached observations. -/
theorem drain_cons (parse : String → Option Int) (since : Int)
    (r : WorkerResult) (rest : List WorkerResult) (tl : List Tweet)
    (rl : RateLimitStatus) :
    drain parse since (r :: rest) (tl, rl) =
      match r.err with
      | some e => .error e
      | none =>
        let rl :=
          match r.apiResult.rateLimit with
          | some incoming => mergeRL rl incoming
          | none => rl
        match accumUsers parse since tl r.apiResult.results with
        | .error e => .error e
        | .ok tl => drain parse since rest (tl, rl) := rfl

theorem drain_ok (parse : String → Option Int) (since : Int)
    (arrivals : List WorkerResult) (tl : List Tweet) (rl : RateLimitStatus)
    (h : ∀ r ∈ arrivals, CleanResult parse r) :
    drain parse since arrivals (tl, rl) =
      .ok (tl ++ filteredStatuses parse since (resolvedUsers arrivals),
        (observations arrivals).foldl mergeRL rl) := by
  induction arrivals generalizing tl rl with
  | nil => simp [drain, resolvedUsers, filteredStatuses, observations]
  | cons r rest ih =>
    obtain ⟨herr, hclean⟩ := h r (List.mem_cons_self r rest)
    have hrest : ∀ x ∈ rest, CleanResult parse x := by
      intro x hx
      exact h x (List.mem_cons_of_mem r hx)
    have hacc := accumUsers_ok parse since tl r.apiResult.results hclean
    have hres : resolvedUsers (r :: rest)
        = r.apiResult.results ++ resolvedUsers rest := by
      simp [resolvedUsers]
    cases hrl : r.apiResult.rateLimit with
    | none =>
      simp only [drain_cons, herr, hrl, hacc]
      rw [ih _ _ hrest, hres, filteredStatuses_append]
      have hobs : observations (r :: rest) = observations rest := by
        simp [observations, hrl]
      rw [hobs, List.append_assoc]
    | some incoming =>
      simp only [drain_cons, herr, hrl, hacc]
      rw [ih _ _ hrest, hres, filteredStatuses_append]
      have hobs : observations (r :: rest)
          = incoming :: observations rest := by
        simp [observations, hrl]
      rw [hobs, List.append_assoc]
      rfl

/-! ## Pool machine invariants -/

theorem countP_set_add (p : α → Bool) (l : List α) (i : Nat) (x a : α)
    (h : l[i]? = some a) :
    (l.set i x).countP p + (if p a then 1 else 0)
      = l.countP p + (if p x then 1 else 0) := by
  induction l generalizing i with
  | nil => simp at h
  | cons y t ih =>
    cases i with
    | zero =>
      simp at h
      subst h
      simp only [List.set_cons_zero, List.countP_cons]
      omega
    | succ n =>
      simp at h
      simp only [List.set_cons_succ, List.countP_cons]
      have := ih n h
      omega

theorem poolStep_workers_length {s t : PoolState} (h : PoolStep s t) :
    t.workers.length = s.workers.length := by
  cases h <;> simp

theorem poolStep_canceled {s t : PoolState} (h : PoolStep s t)
    (hc : s.canceled = true) : t.canceled = true := by
  cases h <;> simp_all

/-- After cancellation, one step never increases `lookups + waiting`:
a post-cancel `recv` trades a waiting worker for a lookup, and the
collector no longer reads `out` (the `send` step needs
`canceled = false`), so each worker performs at most one further
lookup. -/
theorem poolStep_pot {s t : PoolState} (h : PoolStep s t)
    (hc : s.canceled = true) :
    t.lookups + waitingCount t ≤ s.lookups + waitingCount s := by
  cases h with
  | recv i b rest hw hp =>
    have hcount := countP_set_add isWaiting s.workers i
      (WState.looking b) WState.waitingRecv hw
    simp [isWaiting] at hcount
    simp only [waitingCount]
    omega
  | finish i b hw =>
    have hcount := countP_set_add isWaiting s.workers i
      WState.sending (WState.looking b) hw
    simp [isWaiting] at hcount
    simp only [waitingCount]
    omega
  | send i hw hc2 => rw [hc] at hc2; exact Bool.noConfusion hc2
  | cancelExit i hw hc2 =>
    have hcount := countP_set_add isWaiting s.workers i
      WState.done WState.sending hw
    simp [isWaiting] at hcount
    simp only [waitingCount]
    omega
  | exitClosed i hw hp =>
    have hcount := countP_set_add isWaiting s.workers i
      WState.done WState.waitingRecv hw
    simp [isWaiting] at hcount
    simp only [waitingCount]
    omega
  | cancelHappens hc2 => rw [hc] at hc2; exact Bool.noConfusion hc2

theorem poolReaches_canceled {s t : PoolState} (h : PoolReaches s t)
    (hc : s.canceled = true) : t.canceled = true := by
  induction h with
  | refl => exact hc
  | tail hst hstep ih => exact poolStep_canceled hstep ih

theorem poolReaches_pot {s t : PoolState} (h : PoolReaches s t)
    (hc : s.canceled = true) :
    t.lookups + waitingCount t ≤ s.lookups + waitingCount s := by
  induction h with
  | refl => exact Nat.le_refl _
  | tail hst hstep ih =>
    exact Nat.le_trans (poolStep_pot hstep (poolReaches_canceled hst hc)) ih

theorem poolReaches_workers_length {s t : PoolState} (h : PoolReaches s t) :
    t.workers.length = s.workers.length := by
  induction h with
  | refl => rfl
  | tail hst hstep ih => rw [poolStep_workers_length hstep, ih]

theorem lookingCount_le_workers (s : PoolState) :
    lookingCount s ≤ s.workers.length :=
  List.countP_le_length _

theorem waitingCount_le_workers (s : PoolState) :
    waitingCount s ≤ s.workers.length :=
  List.countP_le_length _

/-- Every status selected by the filter has a parseable creation time
strictly after `since` (and its fields other than the attached user
come from a resolved status). -/
theorem mem_filteredStatuses (parse : String → Option Int) (since : Int)
    (us : List User) (t : Tweet)
    (ht : t ∈ filteredStatuses parse since us) :
    ∃ v, parse t.createdAt = some v ∧ since < v := by
  unfold filteredStatuses at ht
  rw [List.mem_filterMap] at ht
  obtain ⟨u, _, hu⟩ := ht
  cases hs : u.status with
  | none =>
    simp only [hs] at hu
    exact Option.noConfusion hu
  | some tweet =>
    simp only [hs] at hu
    cases hp : parse tweet.createdAt with
    | none =>
      simp only [hp] at hu
      exact Option.noConfusion hu
    | some v =>
      simp only [hp] at hu
      by_cases hgt : v > since
      · simp only [hgt, if_pos] at hu
        obtain rfl := Option.some.inj hu
        exact ⟨v, hp, hgt⟩
      · simp [hgt] at hu

/-! ## Claims -/

/-- C2 counterexample: two observations where one has the later reset
and the other the smaller remaining count.  The replacement test
(bot.go:202) fires for the incoming observation in both argument
orders, so the merge is order-dependent. -/
theorem C2_counterexample :
    mergeRL ⟨180, 5, 1⟩ ⟨180, 10, 2⟩ ≠ mergeRL ⟨180, 10, 2⟩ ⟨180, 5, 1⟩ := by
  decide

/-- C2 (amended): the rate-limit merge of bot.go:201-205 is idempotent,
but it is not commutative: the incoming observation replaces the
accumulator exactly when it has a strictly later reset or strictly
fewer remaining calls, so when one observation has a later reset and
the other fewer remaining calls the result depends on argument order. -/
theorem C2_merge_idempotent_not_commutative :
    (∀ a : RateLimitStatus, mergeRL a a = a) ∧
      ¬ (∀ a b : RateLimitStatus, mergeRL a b = mergeRL b a) := by
  constructor
  · intro a
    unfold mergeRL
    simp
  · intro h
    have hcontr := h ⟨180, 5, 1⟩ ⟨180, 10, 2⟩
    revert hcontr
    decide

/-- C4: the scheduler wait computation (bot.go:109-119) equals the
specified formula — 10 seconds when `diff ≤ 0`, otherwise
`max(10, (reset − now) / max(1, remaining / diff))` with truncating
integer division — and on the spec's example (prior remaining 180,
current remaining 165, reset 900 seconds away) it is 81 seconds. -/
theorem C4_wait_interval :
    (∀ latest current : RateLimitStatus, ∀ now : Int,
      calcMaxWait latest current now =
        if (latest.remaining : Int) - (current.remaining : Int) ≤ 0 then 10
        else
          max 10 (Int.tdiv (current.reset - now)
            (max 1 (Int.tdiv (current.remaining : Int)
              ((latest.remaining : Int) - (current.remaining : Int)))))) ∧
    ∀ L1 L2 : Nat, ∀ R now : Int,
      calcMaxWait ⟨L1, 180, R⟩ ⟨L2, 165, now + 900⟩ now = 81 := by
  have main : ∀ latest current : RateLimitStatus, ∀ now : Int,
      calcMaxWait latest current now =
        if (latest.remaining : Int) - (current.remaining : Int) ≤ 0 then 10
        else
          max 10 (Int.tdiv (current.reset - now)
            (max 1 (Int.tdiv (current.remaining : Int)
              ((latest.remaining : Int) - (current.remaining : Int))))) := by
    intro latest current now
    unfold calcMaxWait
    dsimp only
    by_cases hd :
        (latest.remaining : Int) - (current.remaining : Int) > 0
    · rw [if_pos hd,
        if_neg (show ¬ ((latest.remaining : Int) - (current.remaining : Int)
          ≤ 0) by omega)]
      have hnn : (0 : Int) ≤ Int.tdiv (current.remaining : Int)
          ((latest.remaining : Int) - (current.remaining : Int)) :=
        Int.tdiv_nonneg (by positivity) (le_of_lt hd)
      have hnum :
          (if Int.tdiv (current.remaining : Int)
                ((latest.remaining : Int) - (current.remaining : Int)) = 0
            then Int.tdiv (current.remaining : Int)
                ((latest.remaining : Int) - (current.remaining : Int)) + 1
            else Int.tdiv (current.remaining : Int)
                ((latest.remaining : Int) - (current.remaining : Int)))
          = max 1 (Int.tdiv (current.remaining : Int)
              ((latest.remaining : Int) - (current.remaining : Int))) := by
        by_cases h0 : Int.tdiv (current.remaining : Int)
            ((latest.remaining : Int) - (current.remaining : Int)) = 0
        · rw [if_pos h0, h0]
          decide
        · rw [if_neg h0]
          exact (max_eq_right (by omega)).symm
      rw [hnum]
      by_cases hw : Int.tdiv (current.reset - now)
          (max 1 (Int.tdiv (current.remaining : Int)
            ((latest.remaining : Int) - (current.remaining : Int)))) > 10
      · rw [if_pos hw]
        exact (max_eq_right (by omega)).symm
      · rw [if_neg hw]
        exact (max_eq_left (by omega)).symm
    · rw [if_neg hd,
        if_pos (show (latest.remaining : Int) - (current.remaining : Int)
          ≤ 0 by omega)]
  refine ⟨main, ?_⟩
  intro L1 L2 R now
  rw [main]
  norm_num
  decide

/-! ## Batching lemmas (C5) -/

theorem inputBatches_nil : inputBatches ([] : List Int) = [] := by
  rw [inputBatches]
  simp

theorem inputBatches_cons (ids : List Int) (h : ids ≠ []) :
    inputBatches ids = ids.take 100 :: inputBatches (ids.drop 100) := by
  conv_lhs => rw [inputBatches]
  rw [dif_neg h]

theorem inputBatches_ne_nil (ids : List Int) (h : ids ≠ []) :
    inputBatches ids ≠ [] := by
  rw [inputBatches_cons ids h]
  simp

theorem length_inputBatches (ids : List Int) :
    (inputBatches ids).length = (ids.length + 99) / 100 := by
  induction ids using inputBatches.induct with
  | case1 => simp [inputBatches_nil]
  | case2 ids h ih =>
    rw [inputBatches_cons ids h]
    simp only [List.length_cons, ih, List.length_drop]
    have hp : 0 < ids.length := List.length_pos.mpr h
    omega

theorem mem_inputBatches (ids : List Int) :
    ∀ b ∈ inputBatches ids, b ≠ [] ∧ b.length ≤ 100 := by
  induction ids using inputBatches.induct with
  | case1 => simp [inputBatches_nil]
  | case2 ids h ih =>
    rw [inputBatches_cons ids h]
    intro b hb
    rcases List.mem_cons.mp hb with hb1 | hb2
    · subst hb1
      constructor
      · have hp : 0 < ids.length := List.length_pos.mpr h
        intro hc
        have hlc : (ids.take 100).length = 0 := by rw [hc]; rfl
        rw [List.length_take] at hlc
        omega
      · simp
    · exact ih b hb2

theorem flatten_inputBatches (ids : List Int) :
    (inputBatches ids).flatten = ids := by
  induction ids using inputBatches.induct with
  | case1 => simp [inputBatches_nil]
  | case2 ids h ih =>
    rw [inputBatches_cons ids h]
    simp [ih]

theorem getLast_cons_of_ne_nil (x : α) (l : List α) (h : l ≠ []) :
    (x :: l).getLast? = l.getLast? := by
  cases l with
  | nil => exact absurd rfl h
  | cons y t => exact List.getLast?_cons_cons

theorem getLast_inputBatches (ids : List Int) :
    ∀ bl, (inputBatches ids).getLast? = some bl →
      bl.length = if ids.length % 100 = 0 then 100 else ids.length % 100 := by
  induction ids using inputBatches.induct with
  | case1 =>
    intro bl hbl
    rw [inputBatches_nil] at hbl
    exact Option.noConfusion hbl
  | case2 ids h ih =>
    intro bl hbl
    rw [inputBatches_cons ids h] at hbl
    have hp : 0 < ids.length := List.length_pos.mpr h
    by_cases hd : ids.drop 100 = []
    · have hlen : ids.length ≤ 100 := by
        have := congrArg List.length hd
        simp at this
        omega
      rw [hd, inputBatches_nil] at hbl
      simp at hbl
      subst hbl
      simp only [List.length_take]
      have : min 100 ids.length = ids.length := by omega
      rw [this]
      by_cases hm : ids.length % 100 = 0
      · rw [if_pos hm]
        omega
      · rw [if_neg hm]
        omega
    · rw [getLast_cons_of_ne_nil _ _ (inputBatches_ne_nil _ hd)] at hbl
      have := ih bl hbl
      have hlen : 100 < ids.length := by
        have hd2 := List.length_pos.mpr hd
        simp only [List.length_drop] at hd2
        omega
      simp only [List.length_drop] at this
      by_cases hm : ids.length % 100 = 0
      · rw [if_pos hm]
        rw [if_pos (by omega : (ids.length - 100) % 100 = 0)] at this
        exact this
      · rw [if_neg hm]
        rw [if_neg (by omega : ¬ (ids.length - 100) % 100 = 0)] at this
        omega

/-- C5: for an identifier list of length `N`, the producer emits
`ceil(N/100) = (N + 99) / 100` batches (0 when `N = 0`), no batch is
empty, each has at most 100 identifiers, their concatenation in
emission order is the input list, and the last batch has `N mod 100`
identifiers (or 100 when `N` is a positive multiple of 100). -/
theorem C5_batching (ids : List Int) :
    (inputBatches ids).length = (ids.length + 99) / 100 ∧
    (∀ b ∈ inputBatches ids, b ≠ [] ∧ b.length ≤ 100) ∧
    (inputBatches ids).flatten = ids ∧
    (ids ≠ [] → ∃ bl, (inputBatches ids).getLast? = some bl ∧
      bl.length = if ids.length % 100 = 0 then 100 else ids.length % 100) := by
  refine ⟨length_inputBatches ids, mem_inputBatches ids,
    flatten_inputBatches ids, ?_⟩
  intro h
  have hsome := List.getLast?_eq_getLast _ (inputBatches_ne_nil ids h)
  exact ⟨_, hsome, getLast_inputBatches ids _ hsome⟩

/-- C5 witness: a concrete 3-identifier list (the repository test's
follower set) has one non-empty batch of size 3 covering the input. -/
theorem C5_batching_witness :
    (inputBatches [100, 200, 300]).length = 1 ∧
    (∀ b ∈ inputBatches [100, 200, 300], b ≠ [] ∧ b.length ≤ 100) ∧
    (inputBatches [100, 200, 300]).flatten = [100, 200, 300] ∧
    (∃ bl, (inputBatches [100, 200, 300]).getLast? = some bl ∧
      bl.length = 3) := by
  obtain ⟨h1, h2, h3, h4⟩ := C5_batching [100, 200, 300]
  refine ⟨by simpa using h1, h2, h3, ?_⟩
  obtain ⟨bl, hbl, hlen⟩ := h4 (by decide)
  exact ⟨bl, hbl, by simpa using hlen⟩

/-! ## Cache lemmas (C8) -/

theorem shuffleLoop_perm (r : Nat → Nat) (n : Nat) (l : List Int) :
    List.Perm (shuffleLoop r n l) l := by
  induction n generalizing l with
  | zero => exact List.Perm.refl l
  | succ n ih => exact List.Perm.trans (ih _) (lswap_perm l n (r n))

/-- C8: `pickIds` returns the empty result whenever `now` is past the
stored expiry; otherwise it returns the prefix of length
`min(n, 1000)` of an in-place permutation of the stored identifiers.
`setIds` with a zero ttl sets the expiry to `now` plus the 15-minute
default window. -/
theorem C8_cache (store : IdsStore) (now : Int) (r : Nat → Nat)
    (ids : List Int) (d : Int) :
    ((setIds store now ids 0).expires = now + defaultKeepDuration ∧
      (setIds store now ids d).ids = ids) ∧
    (now > store.expires → pickIds store now r = ([], store)) ∧
    (¬ now > store.expires →
      List.Perm (shuffleLoop r store.ids.length store.ids) store.ids ∧
      (pickIds store now r).1 =
        (shuffleLoop r store.ids.length store.ids).take
          (min 1000 store.ids.length) ∧
      (pickIds store now r).1.length = min 1000 store.ids.length ∧
      (pickIds store now r).2.ids
        = shuffleLoop r store.ids.length store.ids) := by
  have hperm := shuffleLoop_perm r store.ids.length store.ids
  have hlen : (shuffleLoop r store.ids.length store.ids).length
      = store.ids.length := hperm.length_eq
  refine ⟨⟨by simp [setIds], by simp [setIds]⟩, ?_, ?_⟩
  · intro h
    unfold pickIds
    rw [if_pos h]
  · intro h
    unfold pickIds
    rw [if_neg h]
    dsimp only
    have hmax :
        (if (shuffleLoop r store.ids.length store.ids).length < 1000
          then (shuffleLoop r store.ids.length store.ids).length
          else 1000) = min 1000 store.ids.length := by
      rw [hlen]
      by_cases hx : store.ids.length < 1000
      · rw [if_pos hx, Nat.min_def, if_neg (by omega)]
      · rw [if_neg hx, Nat.min_def, if_pos (by omega)]
    rw [hmax]
    refine ⟨hperm, rfl, ?_, rfl⟩
    rw [List.length_take, hlen, min_assoc, min_self]

/-- C8 witness: a zero-ttl `setIds` call, an expired `pickIds` call
returning nothing, and a live call on three identifiers returning all
three. -/
theorem C8_cache_witness :
    (setIds ⟨0, []⟩ 5 [7, 8] 0).expires = 5 + defaultKeepDuration ∧
    pickIds ⟨100, [1, 2, 3]⟩ 200 (fun _ => 0) = ([], ⟨100, [1, 2, 3]⟩) ∧
    (pickIds ⟨100, [1, 2, 3]⟩ 50 (fun _ => 0)).1.length = 3 := by
  obtain ⟨⟨h1, _⟩, _⟩ := C8_cache ⟨0, []⟩ 5 (fun _ => 0) [7, 8] 0
  obtain ⟨_, h2, _⟩ := C8_cache ⟨100, [1, 2, 3]⟩ 200 (fun _ => 0) [] 0
  obtain ⟨_, _, h3⟩ := C8_cache ⟨100, [1, 2, 3]⟩ 50 (fun _ => 0) [] 0
  refine ⟨h1, h2 (by decide), ?_⟩
  have hl := (h3 (by decide)).2.2.1
  simpa using hl

/-! ## First-error behaviour of the drain loop (C6) -/

theorem drain_append (parse : String → Option Int) (since : Int)
    (xs ys : List WorkerResult) (acc : List Tweet × RateLimitStatus) :
    drain parse since (xs ++ ys) acc =
      match drain parse since xs acc with
      | .ok acc2 => drain parse since ys acc2
      | .error e => .error e := by
  induction xs generalizing acc with
  | nil =>
    obtain ⟨tl, rl⟩ := acc
    simp [drain]
  | cons r rest ih =>
    obtain ⟨tl, rl⟩ := acc
    rw [List.cons_append]
    cases herr : r.err with
    | some e => simp [drain_cons, herr]
    | none =>
      simp only [drain_cons, herr]
      cases haccum : accumUsers parse since tl r.apiResult.results with
      | error e => simp [haccum]
      | ok tl2 =>
        simp only [haccum]
        exact ih _

/-- Concrete timestamp parser for witnesses and counterexamples:
a handful of decimal literals parse to their value, anything else
fails. -/
def parseDigits (s : String) : Option Int :=
  if s = "0" then some 0
  else if s = "2" then some 2
  else if s = "5" then some 5
  else if s = "7" then some 7
  else if s = "9" then some 9
  else none

/-- C6: on the first failing worker result — a worker error or a
timestamp-parse failure during accumulation — `followersTimeline`
returns `(nil, nil, err)` with that first error, discards every
partially accumulated status and rate-limit observation, and ignores
all later results. -/
theorem C6_first_error_wins (parse : String → Option Int)
    (sortFn : List Tweet → List Tweet) (since : Int)
    (pre : List WorkerResult) (bad : WorkerResult)
    (acc : List Tweet × RateLimitStatus) (e : GoErr)
    (hpre : drain parse since pre ([], ⟨0, 0, 0⟩) = .ok acc)
    (hbad : bad.err = some e ∨
      (bad.err = none ∧
        accumUsers parse since acc.1 bad.apiResult.results = .error e)) :
    ∀ post, followersTimeline parse sortFn since (pre ++ bad :: post)
      = ⟨none, none, some e⟩ := by
  intro post
  unfold followersTimeline
  rw [drain_append, hpre]
  obtain ⟨tl, rl⟩ := acc
  have hstep : drain parse since (bad :: post) (tl, rl) = .error e := by
    rw [drain_cons]
    rcases hbad with h1 | ⟨h1, h2⟩
    · rw [h1]
    · rw [h1]
      dsimp only
      rw [h2]
  dsimp only
  rw [hstep]

/-- C6 witness: an error on the only batch result makes the call return
that error with nil timeline and nil rate limit, for any later
results. -/
theorem C6_first_error_wins_witness :
    followersTimeline parseDigits id 0
      ([] ++ (⟨⟨[], none⟩, some (.api "boom")⟩ : WorkerResult) ::
        [⟨⟨[⟨⟨1, "x"⟩, some ⟨"1", "9", "hi", ⟨0, ""⟩⟩⟩], none⟩, none⟩])
      = ⟨none, none, some (.api "boom")⟩ := by
  exact C6_first_error_wins parseDigits id 0 [] _ ([], ⟨0, 0, 0⟩)
    (.api "boom") rfl (Or.inl rfl) _

/-- C10: on a successful call the returned rate-limit pointer is never
nil: the accumulator starts from the zero-valued observation, an
incoming observation replaces it exactly when its reset is strictly
later or its remaining strictly smaller, and with no batches at all
(zero follower identifiers) the call returns a nil timeline, the
zero-valued observation and no error. -/
theorem C10_rate_limit_observation (parse : String → Option Int)
    (sortFn : List Tweet → List Tweet) (since : Int)
    (arrivals : List WorkerResult)
    (hclean : ∀ r ∈ arrivals, CleanResult parse r) :
    (followersTimeline parse sortFn since arrivals).err = none ∧
    (followersTimeline parse sortFn since arrivals).rateLimit
      = some ((observations arrivals).foldl mergeRL ⟨0, 0, 0⟩) ∧
    followersTimeline parse sortFn since []
      = ⟨some [], some ⟨0, 0, 0⟩, none⟩ ∧
    (∀ acc incoming : RateLimitStatus,
      (¬ (incoming.reset > acc.reset ∨ incoming.remaining < acc.remaining) →
        mergeRL acc incoming = acc) ∧
      ((incoming.reset > acc.reset ∨ incoming.remaining < acc.remaining) →
        mergeRL acc incoming = incoming)) := by
  have hdr := drain_ok parse since arrivals [] ⟨0, 0, 0⟩ hclean
  unfold followersTimeline
  rw [hdr]
  refine ⟨rfl, rfl, rfl, ?_⟩
  intro acc incoming
  constructor
  · intro h
    unfold mergeRL
    rw [if_neg h]
  · intro h
    unfold mergeRL
    rw [if_pos h]

/-- C10 witness: one batch result carrying an observation, and the
zero-follower case. -/
theorem C10_rate_limit_observation_witness :
    (followersTimeline parseDigits id 0
        [⟨⟨[], some ⟨10, 15, 99⟩⟩, none⟩]).err = none ∧
    (followersTimeline parseDigits id 0
        [⟨⟨[], some ⟨10, 15, 99⟩⟩, none⟩]).rateLimit = some ⟨10, 15, 99⟩ ∧
    followersTimeline parseDigits id 0 []
      = ⟨some [], some ⟨0, 0, 0⟩, none⟩ := by
  obtain ⟨h1, h2, h3, _⟩ := C10_rate_limit_observation parseDigits id 0
    [⟨⟨[], some ⟨10, 15, 99⟩⟩, none⟩] (by decide)
  refine ⟨h1, ?_, h3⟩
  rw [h2]
  rfl

/-! ## Watermark lemmas (C7) -/

theorem getLast?_mem {l : List α} {t : α} (h : l.getLast? = some t) :
    t ∈ l := by
  induction l with
  | nil => exact Option.noConfusion h
  | cons x xs ih =>
    cases xs with
    | nil =>
      simp at h
      subst h
      exact List.mem_singleton_self x
    | cons y ys =>
      rw [List.getLast?_cons_cons] at h
      exact List.mem_cons_of_mem x (ih h)

theorem pairwise_le_getLast (time : β → Int) :
    ∀ l : List β, l.Pairwise (fun a b => ¬ time b < time a) →
    ∀ t, l.getLast? = some t → ∀ x ∈ l, time x ≤ time t := by
  intro l
  induction l with
  | nil =>
    intro _ t ht
    exact Option.noConfusion ht
  | cons y ys ih =>
    intro h t ht x hx
    cases ys with
    | nil =>
      simp at ht hx
      subst ht
      subst hx
      exact le_refl _
    | cons z zs =>
      rw [List.getLast?_cons_cons] at ht
      obtain ⟨hy, hys⟩ := List.pairwise_cons.mp h
      rcases List.mem_cons.mp hx with rfl | hx2
      · have htm : t ∈ z :: zs := getLast?_mem ht
        have := hy t htm
        omega
      · exact ih hys t ht x hx2

/-- Reference sort satisfying the `sort.Sort` contract: insertion sort
by parsed creation time.  Used to instantiate the contract in
witnesses. -/
def contractSort (parse : String → Option Int) (l : List Tweet) :
    List Tweet :=
  List.insertionSort
    (fun a b => tweetTimeD parse a ≤ tweetTimeD parse b) l

theorem contractSort_contract (parse : String → Option Int) :
    GoSortContract parse (contractSort parse) := by
  intro l
  constructor
  · exact List.perm_insertionSort _ l
  · haveI hTot : IsTotal Tweet
        (fun a b => tweetTimeD parse a ≤ tweetTimeD parse b) :=
      ⟨fun a b => le_total _ _⟩
    haveI hTrans : IsTrans Tweet
        (fun a b => tweetTimeD parse a ≤ tweetTimeD parse b) :=
      ⟨fun a b c hab hbc => le_trans hab hbc⟩
    have hs := List.sorted_insertionSort
      (r := fun a b => tweetTimeD parse a ≤ tweetTimeD parse b) l
    exact hs.imp (fun hab => not_lt.mpr hab)

/-- C7: under the sort contract, the scheduler watermark never
regresses: an empty timeline leaves it unchanged, and a non-empty
timeline advances it to the parsed creation time of the last element,
which is the most recent one and strictly after the previous
watermark. -/
theorem C7_watermark (parse : String → Option Int)
    (sortFn : List Tweet → List Tweet) (old : Int)
    (arrivals : List WorkerResult) (tl : List Tweet)
    (hsort : GoSortContract parse sortFn)
    (hclean : ∀ r ∈ arrivals, CleanResult parse r)
    (htl : (followersTimeline parse sortFn old arrivals).timeline
      = some tl) :
    (tl = [] → updateWatermark parse old tl = .ok old) ∧
    (tl ≠ [] → ∃ t newW, tl.getLast? = some t ∧
      parse t.createdAt = some newW ∧
      updateWatermark parse old tl = .ok newW ∧
      old < newW ∧
      ∀ x ∈ tl, tweetTimeD parse x ≤ tweetTimeD parse t) := by
  constructor
  · intro he
    subst he
    rfl
  · intro hne
    have hdr := drain_ok parse old arrivals [] ⟨0, 0, 0⟩ hclean
    unfold followersTimeline at htl
    rw [hdr] at htl
    dsimp only at htl
    rw [List.nil_append] at htl
    by_cases hemp :
        (filteredStatuses parse old (resolvedUsers arrivals)).isEmpty
    · rw [if_pos hemp] at htl
      obtain rfl := Option.some.inj htl
      exact absurd (List.isEmpty_iff.mp hemp) hne
    · rw [if_neg hemp] at htl
      obtain rfl := Option.some.inj htl
      obtain ⟨hperm, hpair⟩ :=
        hsort (filteredStatuses parse old (resolvedUsers arrivals))
      have ht := List.getLast?_eq_getLast _ hne
      have htmem := hperm.subset (getLast?_mem ht)
      obtain ⟨v, hv, hgt⟩ :=
        mem_filteredStatuses parse old (resolvedUsers arrivals) _ htmem
      refine ⟨_, v, ht, hv, ?_, hgt, ?_⟩
      · unfold updateWatermark
        rw [ht]
        dsimp only
        rw [hv]
      · exact pairwise_le_getLast (tweetTimeD parse) _ hpair _ ht

/-- Concrete fetch input for the C7 witness: one batch resolving two
accounts whose statuses were created at times 5 and 2. -/
def c7arrivals : List WorkerResult :=
  [⟨⟨[⟨⟨1, "u"⟩, some ⟨"1", "5", "t1", ⟨0, ""⟩⟩⟩,
      ⟨⟨2, "v"⟩, some ⟨"2", "2", "t2", ⟨0, ""⟩⟩⟩], none⟩, none⟩]

def c7tl : List Tweet :=
  ((followersTimeline parseDigits (contractSort parseDigits) 0
    c7arrivals).timeline).getD []

/-- C7 witness: on the concrete input the watermark advances to the
creation time of the last (most recent) element, strictly past 0. -/
theorem C7_watermark_witness :
    ∃ t newW, c7tl.getLast? = some t ∧
      parseDigits t.createdAt = some newW ∧
      updateWatermark parseDigits 0 c7tl = .ok newW ∧
      0 < newW ∧
      ∀ x ∈ c7tl, tweetTimeD parseDigits x ≤ tweetTimeD parseDigits t :=
  (C7_watermark parseDigits (contractSort parseDigits) 0 c7arrivals c7tl
    (contractSort_contract parseDigits) (by decide) rfl).2 (by decide)

/-! ## Success characterization of `followersTimeline` (C1) -/

theorem followersTimeline_ok (parse : String → Option Int)
    (sortFn : List Tweet → List Tweet) (since : Int)
    (arrivals : List WorkerResult)
    (hclean : ∀ r ∈ arrivals, CleanResult parse r) :
    followersTimeline parse sortFn since arrivals =
      ⟨some
        (if (filteredStatuses parse since (resolvedUsers arrivals)).isEmpty
          then filteredStatuses parse since (resolvedUsers arrivals)
          else sortFn (filteredStatuses parse since (resolvedUsers arrivals))),
        some ((observations arrivals).foldl mergeRL ⟨0, 0, 0⟩), none⟩ := by
  unfold followersTimeline
  rw [drain_ok _ _ _ _ _ hclean]
  dsimp only
  rw [List.nil_append]

theorem resolvedUsers_perm {a1 a2 : List WorkerResult}
    (h : List.Perm a1 a2) :
    List.Perm (resolvedUsers a1) (resolvedUsers a2) := by
  unfold resolvedUsers
  exact (h.map (fun r => r.apiResult.results)).flatten

theorem filteredStatuses_perm (parse : String → Option Int) (since : Int)
    {us vs : List User} (h : List.Perm us vs) :
    List.Perm (filteredStatuses parse since us)
      (filteredStatuses parse since vs) := by
  unfold filteredStatuses
  exact h.filterMap _

/-- C1: under the `sort.Sort` contract, a clean fetch round returns no
error and a Timeline holding exactly the resolved Statuses whose parsed
creation time is strictly after `since` (one created exactly at `since`
is excluded), in nondecreasing order of parsed creation time; any
permutation of the arrival order of the batch results yields the same
Timeline up to permutation (the same multiset of Statuses). -/
theorem C1_followers_timeline (parse : String → Option Int)
    (sortFn : List Tweet → List Tweet) (since : Int)
    (arrivals : List WorkerResult)
    (hsort : GoSortContract parse sortFn)
    (hclean : ∀ r ∈ arrivals, CleanResult parse r) :
    ∃ tl, (followersTimeline parse sortFn since arrivals).timeline
        = some tl ∧
      (followersTimeline parse sortFn since arrivals).err = none ∧
      List.Perm tl (filteredStatuses parse since (resolvedUsers arrivals)) ∧
      (∀ t ∈ tl, ∃ v, parse t.createdAt = some v ∧ since < v) ∧
      tl.Pairwise (fun a b => tweetTimeD parse a ≤ tweetTimeD parse b) ∧
      (∀ arrivals2, List.Perm arrivals2 arrivals →
        ∃ tl2, (followersTimeline parse sortFn since arrivals2).timeline
          = some tl2 ∧ List.Perm tl2 tl) := by
  have hmain := followersTimeline_ok parse sortFn since arrivals hclean
  by_cases hemp :
      (filteredStatuses parse since (resolvedUsers arrivals)).isEmpty
  · have hnil := List.isEmpty_iff.mp hemp
    refine ⟨filteredStatuses parse since (resolvedUsers arrivals),
      by rw [hmain]; simp [hemp], by rw [hmain], List.Perm.refl _, ?_, ?_, ?_⟩
    · intro t htm
      exact mem_filteredStatuses parse since (resolvedUsers arrivals) t htm
    · rw [hnil]
      exact List.Pairwise.nil
    · intro a2 hp2
      have hclean2 : ∀ r ∈ a2, CleanResult parse r := fun r hr =>
        hclean r (hp2.subset hr)
      have hmain2 := followersTimeline_ok parse sortFn since a2 hclean2
      have hFSperm : List.Perm
          (filteredStatuses parse since (resolvedUsers a2))
          (filteredStatuses parse since (resolvedUsers arrivals)) :=
        filteredStatuses_perm parse since (resolvedUsers_perm hp2)
      have hnil2 : filteredStatuses parse since (resolvedUsers a2) = [] := by
        rw [hnil] at hFSperm
        exact hFSperm.eq_nil
      refine ⟨filteredStatuses parse since (resolvedUsers a2),
        by rw [hmain2]; simp [hnil2], ?_⟩
      rw [hnil2, hnil]
  · obtain ⟨hperm, hpair⟩ :=
      hsort (filteredStatuses parse since (resolvedUsers arrivals))
    refine ⟨sortFn (filteredStatuses parse since (resolvedUsers arrivals)),
      by rw [hmain]; simp [hemp], by rw [hmain], hperm, ?_, ?_, ?_⟩
    · intro t htm
      exact mem_filteredStatuses parse since (resolvedUsers arrivals) t
        (hperm.subset htm)
    · exact hpair.imp (fun hab => not_lt.mp hab)
    · intro a2 hp2
      have hclean2 : ∀ r ∈ a2, CleanResult parse r := fun r hr =>
        hclean r (hp2.subset hr)
      have hmain2 := followersTimeline_ok parse sortFn since a2 hclean2
      have hFSperm : List.Perm
          (filteredStatuses parse since (resolvedUsers a2))
          (filteredStatuses parse since (resolvedUsers arrivals)) :=
        filteredStatuses_perm parse since (resolvedUsers_perm hp2)
      have hemp2 :
          (filteredStatuses parse since (resolvedUsers a2)).isEmpty
            = false := by
        rcases he : (filteredStatuses parse since
            (resolvedUsers a2)).isEmpty with _ | _
        · rfl
        · exfalso
          apply hemp
          have hnil2 := List.isEmpty_iff.mp he
          rw [hnil2] at hFSperm
          rw [List.isEmpty_iff]
          exact hFSperm.symm.eq_nil
      obtain ⟨hperm2, _⟩ :=
        hsort (filteredStatuses parse since (resolvedUsers a2))
      refine ⟨sortFn (filteredStatuses parse since (resolvedUsers a2)),
        by rw [hmain2]; simp [hemp2], ?_⟩
      exact hperm2.trans (hFSperm.trans hperm.symm)

/-- Concrete fetch input for the C1 witness: one batch resolving three
accounts, with statuses at times 5, 9 and 2, one account without a
status, and `since = 2` (the time-2 status sits exactly at the
threshold and is excluded). -/
def c1arrivals : List WorkerResult :=
  [⟨⟨[⟨⟨1, "u"⟩, some ⟨"1", "5", "t1", ⟨0, ""⟩⟩⟩,
      ⟨⟨2, "v"⟩, some ⟨"2", "9", "t2", ⟨0, ""⟩⟩⟩,
      ⟨⟨3, "w"⟩, none⟩,
      ⟨⟨4, "x"⟩, some ⟨"4", "2", "t4", ⟨0, ""⟩⟩⟩], some ⟨10, 15, 99⟩⟩,
    none⟩]

/-- C1 witness: the contract-satisfying reference sort on the concrete
input. -/
theorem C1_followers_timeline_witness :
    ∃ tl, (followersTimeline parseDigits (contractSort parseDigits) 2
        c1arrivals).timeline = some tl ∧
      (followersTimeline parseDigits (contractSort parseDigits) 2
        c1arrivals).err = none ∧
      List.Perm tl (filteredStatuses parseDigits 2
        (resolvedUsers c1arrivals)) ∧
      (∀ t ∈ tl, ∃ v, parseDigits t.createdAt = some v ∧ 2 < v) ∧
      tl.Pairwise
        (fun a b => tweetTimeD parseDigits a ≤ tweetTimeD parseDigits b) ∧
      (∀ arrivals2, List.Perm arrivals2 c1arrivals →
        ∃ tl2, (followersTimeline parseDigits (contractSort parseDigits) 2
          arrivals2).timeline = some tl2 ∧ List.Perm tl2 tl) :=
  C1_followers_timeline parseDigits (contractSort parseDigits) 2 c1arrivals
    (contractSort_contract parseDigits) (by decide)

/-! ## Stability of the final sort (C3) -/

/-- Eight resolved statuses whose creation times are 0, 5, 9, 2, 9, 9,
9, 2: the statuses with ids `d` and `h` carry equal times. -/
def c3users : List User :=
  [⟨⟨1, "ua"⟩, some ⟨"a", "0", "", ⟨0, ""⟩⟩⟩,
   ⟨⟨2, "ub"⟩, some ⟨"b", "5", "", ⟨0, ""⟩⟩⟩,
   ⟨⟨3, "uc"⟩, some ⟨"c", "9", "", ⟨0, ""⟩⟩⟩,
   ⟨⟨4, "ud"⟩, some ⟨"d", "2", "", ⟨0, ""⟩⟩⟩,
   ⟨⟨5, "ue"⟩, some ⟨"e", "9", "", ⟨0, ""⟩⟩⟩,
   ⟨⟨6, "uf"⟩, some ⟨"f", "9", "", ⟨0, ""⟩⟩⟩,
   ⟨⟨7, "ug"⟩, some ⟨"g", "9", "", ⟨0, ""⟩⟩⟩,
   ⟨⟨8, "uh"⟩, some ⟨"h", "2", "", ⟨0, ""⟩⟩⟩]

def c3arrivals : List WorkerResult := [⟨⟨c3users, none⟩, none⟩]

/-- The accumulation order of the fetch round on `c3arrivals`. -/
def c3acc : List Tweet :=
  filteredStatuses parseDigits (-1) (resolvedUsers c3arrivals)

set_option maxRecDepth 4000 in
/-- C3 counterexample: running `followersTimeline` with the classic
`sort.Sort` implementation on eight accumulated statuses.  The statuses
with ids `d` (position 3 of the accumulation) and `h` (position 7)
have equal parsed creation times, yet the returned Timeline lists `h`
before `d`: the gap-6 shell-sort pass of `sort.Sort` swaps `h` six
positions forward across `d`, so ties do not keep accumulation order. -/
theorem C3_counterexample :
    (followersTimeline parseDigits (goSortSort (tweetTimeD parseDigits))
        (-1) c3arrivals).timeline
      = some (goSortSort (tweetTimeD parseDigits) c3acc) ∧
    c3acc.map (fun t => (t.idStr, tweetTimeD parseDigits t))
      = [("a", 0), ("b", 5), ("c", 9), ("d", 2),
         ("e", 9), ("f", 9), ("g", 9), ("h", 2)] ∧
    (goSortSort (tweetTimeD parseDigits) c3acc).map Tweet.idStr
      = ["a", "h", "d", "b", "c", "e", "f", "g"] := by
  decide

/-- C3 (amended): the deferred sort returns a permutation of the
accumulated Timeline reordered by the `Less` comparator, but it is not
stable — `sort.Sort` gives no stability guarantee and its classic
implementation reorders statuses with equal parsed creation times
relative to their accumulation order (see the counterexample with
eight statuses). -/
theorem C3_sort_permutes_not_stable (parse : String → Option Int)
    (since : Int) (arrivals : List WorkerResult) (tl : List Tweet)
    (rl : RateLimitStatus)
    (h : drain parse since arrivals ([], ⟨0, 0, 0⟩) = .ok (tl, rl)) :
    ∃ tl2, (followersTimeline parse (goSortSort (tweetTimeD parse))
        since arrivals).timeline = some tl2 ∧
      List.Perm tl2 tl := by
  unfold followersTimeline
  rw [h]
  dsimp only
  by_cases hemp : tl.isEmpty
  · rw [if_pos hemp]
    exact ⟨tl, rfl, List.Perm.refl tl⟩
  · rw [if_neg hemp]
    exact ⟨_, rfl, goSortSort_perm _ tl⟩

set_option maxRecDepth 4000 in
/-- C3 witness for the amended statement, on the concrete eight-status
fetch round. -/
theorem C3_sort_permutes_not_stable_witness :
    ∃ tl2, (followersTimeline parseDigits
        (goSortSort (tweetTimeD parseDigits)) (-1) c3arrivals).timeline
      = some tl2 ∧ List.Perm tl2 c3acc :=
  C3_sort_permutes_not_stable parseDigits (-1) c3arrivals c3acc ⟨0, 0, 0⟩
    rfl

/-! ## Worker pool claims (C9) -/

/-- Pool state right after the collector has read an error result and
cancellation has been signaled, with the second batch still pending. -/
def c9s4 : PoolState :=
  ⟨[[2]], [WState.waitingRecv, WState.waitingRecv, WState.waitingRecv,
    WState.waitingRecv, WState.waitingRecv], true, 1⟩

/-- Successor of `c9s4` in which a worker has pulled the second batch
after cancellation: the lookup count increases from 1 to 2. -/
def c9s5 : PoolState :=
  ⟨[], [WState.looking [2], WState.waitingRecv, WState.waitingRecv,
    WState.waitingRecv, WState.waitingRecv], true, 2⟩

/-- C9 counterexample: a reachable execution of the pool (two batches;
the first result is read, the collector returns and closes `cancel`)
in which a worker still receives the second batch from the producer
after cancellation was signaled, so the `usersLookup` call count
increases after cancellation.  Receiving from `in` is not guarded by
`cancel` (bot.go:174-180): a worker checks `cancel` only in the
`select` around its result send. -/
theorem C9_counterexample :
    PoolReaches (initPool [[1], [2]]) c9s4 ∧ c9s4.canceled = true ∧
    PoolStep c9s4 c9s5 ∧ c9s5.lookups = c9s4.lookups + 1 := by
  refine ⟨?_, rfl, ?_, rfl⟩
  · refine Relation.ReflTransGen.head
      (PoolStep.recv (initPool [[1], [2]]) 0 [1] [[2]] rfl rfl) ?_
    refine Relation.ReflTransGen.head
      (PoolStep.finish _ 0 [1] rfl) ?_
    refine Relation.ReflTransGen.head
      (PoolStep.send _ 0 rfl rfl) ?_
    exact Relation.ReflTransGen.head
      (PoolStep.cancelHappens _ rfl) Relation.ReflTransGen.refl
  · exact PoolStep.recv c9s4 0 [2] [] rfl rfl

/-- C9 (amended): in every reachable pool state at most `numWorkers = 5`
workers resolve batches concurrently; and once cancellation is
signaled, each of the five workers can pull at most one further batch
(a worker blocked on `range in` is not stopped by `cancel`), after
which the bulk-lookup call count stops increasing: from any canceled
state `s`, every later state `t` satisfies
`t.lookups ≤ s.lookups + numWorkers`. -/
theorem C9_bounded_pool_cancellation (batches : List (List Int))
    (s t : PoolState)
    (h1 : PoolReaches (initPool batches) s)
    (h2 : PoolReaches s t) :
    (t.workers.length = numWorkers ∧ lookingCount t ≤ numWorkers) ∧
    (s.canceled = true → t.lookups ≤ s.lookups + numWorkers) := by
  have hlen : t.workers.length = numWorkers := by
    have e1 := poolReaches_workers_length (Relation.ReflTransGen.trans h1 h2)
    rw [e1]
    simp [initPool]
  refine ⟨⟨hlen, le_trans (lookingCount_le_workers t) (le_of_eq hlen)⟩, ?_⟩
  intro hc
  have hpot := poolReaches_pot h2 hc
  have hwc : waitingCount s ≤ numWorkers := by
    have e2 := poolReaches_workers_length h1
    have hb := waitingCount_le_workers s
    rw [e2] at hb
    simpa [initPool] using hb
  omega

/-- C9 witness for the amended statement, on the concrete post-cancel
state. -/
theorem C9_bounded_pool_cancellation_witness :
    (c9s5.workers.length = numWorkers ∧ lookingCount c9s5 ≤ numWorkers) ∧
    c9s5.lookups ≤ c9s4.lookups + numWorkers := by
  have hreach : PoolReaches (initPool [[1], [2]]) c9s4 := by
    refine Relation.ReflTransGen.head
      (PoolStep.recv (initPool [[1], [2]]) 0 [1] [[2]] rfl rfl) ?_
    refine Relation.ReflTransGen.head
      (PoolStep.finish _ 0 [1] rfl) ?_
    refine Relation.ReflTransGen.head
      (PoolStep.send _ 0 rfl rfl) ?_
    exact Relation.ReflTransGen.head
      (PoolStep.cancelHappens _ rfl) Relation.ReflTransGen.refl
  have hstep : PoolReaches c9s4 c9s5 :=
    Relation.ReflTransGen.head (PoolStep.recv c9s4 0 [2] [] rfl rfl)
      Relation.ReflTransGen.refl
  have h := C9_bounded_pool_cancellation [[1], [2]] c9s4 c9s5 hreach hstep
  exact ⟨h.1, h.2 rfl⟩

end Mentionbot
